import Mathlib

/-!
Shallow embedding of the two-pass heuristic 3-SAT solver of
`src/Latest_Research.py` (the most refined of the three variants, which the
spec declares canonical).  Python data is modelled as follows:

* a literal (nonzero signed Python `int`) is an `Int`;
* a clause (Python `list` of literals) is a `List Int`;
* the assignment (Python `dict` mapping absolute variable ids to booleans)
  is an association list `List (Nat × Bool)`; `dict` lookup is `List.lookup`
  and `d[k] = v` is `setVar` (replace the binding in place, else append —
  exactly a Python dict's update/insert observable behaviour);
* `random.choice(unsat)` is modelled by an injectable choice oracle
  `rand : Nat → Nat`: iteration `k` picks element `rand k % unsat.length`,
  so universally quantified theorems cover every possible random run;
* the source file handed to `parse_dimacs` is `Option (List PyStr)`:
  `none` is an unreadable file (the `FileNotFoundError` branch), `some lines`
  the file's lines, each a character list; a Python exception while parsing
  is `Option` failure.
-/

abbrev Clause := List Int

abbrev Assignment := List (Nat × Bool)

/-- A decision record: (variable, chosen value, human-readable justification),
as appended to `assignment_steps` / `second_pass_steps` in the Python code. -/
abbrev Step := Nat × Bool × String

/-- Python `var in assignment` / `assignment[var]`: lookup in the dict. -/
def lookupVar (a : Assignment) (v : Nat) : Option Bool :=
  a.lookup v

/-- Python `assignment[var] = val` on a dict: replace the existing binding in
place if present, otherwise append a new binding at the end. -/
def setVar : Assignment → Nat → Bool → Assignment
  | [], v, b => [(v, b)]
  | p :: rest, v, b => if p.1 = v then (v, b) :: rest else p :: setVar rest v b

/-- One literal's contribution inside `is_clause_satisfied`: the variable is
in the assignment and `(literal > 0 and assignment[var]) or
(literal < 0 and not assignment[var])`. -/
def litTrue (assignment : Assignment) (literal : Int) : Bool :=
  match lookupVar assignment literal.natAbs with
  | some val => (decide (0 < literal) && val) || (decide (literal < 0) && !val)
  | none => false

/-- Python `is_clause_satisfied`: some literal of the clause evaluates true;
a variable absent from the assignment contributes nothing. -/
def is_clause_satisfied (clause : Clause) (assignment : Assignment) : Bool :=
  clause.any (litTrue assignment)

/-- Python `count_satisfied_clauses`: how many clauses are satisfied. -/
def count_satisfied_clauses (clauses : List Clause) (assignment : Assignment) : Nat :=
  clauses.countP (fun c => is_clause_satisfied c assignment)

/-- Python `get_literal_satisfaction_counts`, per clause: the number of the
clause's literals that are true under the assignment (the `Counter` in the
code maps each clause index `i` to this value for `clauses[i]`, with a
default of `0`, which agrees with `countP` on the clause itself). -/
def literal_sat_count (assignment : Assignment) (clause : Clause) : Nat :=
  clause.countP (litTrue assignment)

/-- Size of `variable_occurrence_map[l]`: the occurrence map sends a literal
to the *set* of clause indices containing it, so its size is the number of
clauses in which the literal appears (a duplicate inside one clause adds
nothing, indices being distinct). -/
def occCount (clauses : List Clause) (l : Int) : Nat :=
  clauses.countP (fun c => c.contains l)

/-- Insertion step of an ascending sort (models Python `sorted`, ascending). -/
def insertAsc (x : Nat) : List Nat → List Nat
  | [] => [x]
  | y :: ys => if x ≤ y then x :: y :: ys else y :: insertAsc x ys

/-- Python `sorted(...)` on naturals, ascending.  (On a duplicate-free input
the result is the unique strictly ascending enumeration, so any correct sort
agrees with Python's.) -/
def sortAsc : List Nat → List Nat
  | [] => []
  | x :: xs => insertAsc x (sortAsc xs)

/-- Python `all_unique_vars = sorted(list(set(abs(l) for clause in clauses
for l in clause)))`: the distinct absolute variable ids, ascending. -/
def all_unique_vars (clauses : List Clause) : List Nat :=
  sortAsc ((clauses.flatten.map Int.natAbs).dedup)

/-- The sort key of the second Python `sorted`: total occurrences of the
variable, `len(variable_occurrence_map[x]) + len(variable_occurrence_map[-x])`. -/
def totalOcc (clauses : List Clause) (v : Nat) : Nat :=
  occCount clauses (Int.ofNat v) + occCount clauses (-Int.ofNat v)

/-- Insertion step of a stable descending sort by key: the inserted element
`x` precedes exactly the suffix of elements with key `≤ key x`; since `x`
originally precedes every element of the list it is inserted into, this is
stable, matching Python's `sorted(..., key=..., reverse=True)`. -/
def insertDescBy (key : Nat → Nat) (x : Nat) : List Nat → List Nat
  | [] => [x]
  | y :: ys => if key y ≤ key x then x :: y :: ys else y :: insertDescBy key x ys

/-- Stable descending sort by key (Python `sorted(l, key=key, reverse=True)`,
which is stable: elements of equal key keep their relative order). -/
def sortDescBy (key : Nat → Nat) : List Nat → List Nat
  | [] => []
  | x :: xs => insertDescBy key x (sortDescBy key xs)

/-- Python `sorted_variables_by_occurrence`: the distinct variables sorted
descending by total occurrence count, stably over the ascending
`all_unique_vars`. -/
def sorted_variables_by_occurrence (clauses : List Clause) : List Nat :=
  sortDescBy (totalOcc clauses) (all_unique_vars clauses)

/-- The justification string of a construction step choosing the positive
polarity (the Python f-string, `pos >= neg` branch). -/
def posReason (v pos neg : Nat) : String :=
  let negLit : Int := -Int.ofNat v
  s!"Chose {v} (positive) because it appears in {pos} clauses vs {negLit} in {neg} clauses"

/-- The justification string of a construction step choosing the negative
polarity (the Python f-string, `pos < neg` branch). -/
def negReason (v pos neg : Nat) : String :=
  let negLit : Int := -Int.ofNat v
  s!"Chose {negLit} (negative) because it appears in {neg} clauses vs {v} in {pos} clauses"

/-- The decision record the construction heuristic appends for variable `v`:
value `true` with a justification citing `pos` and `neg` when `pos ≥ neg`,
else value `false`. -/
def constructRecord (clauses : List Clause) (v : Nat) : Step :=
  let pos := occCount clauses (Int.ofNat v)
  let neg := occCount clauses (-Int.ofNat v)
  if neg ≤ pos then (v, true, posReason v pos neg) else (v, false, negReason v pos neg)

/-- One turn of the Python construction loop over `var_abs`: skip if already
assigned (the defensive guard), else compare the original occurrence counts
`pos_size` and `neg_size` and assign `pos_size >= neg_size`, appending the
decision record. -/
def constructStep (clauses : List Clause) (st : Assignment × List Step) (v : Nat) :
    Assignment × List Step :=
  if (lookupVar st.1 v).isSome then st
  else
    let pos := occCount clauses (Int.ofNat v)
    let neg := occCount clauses (-Int.ofNat v)
    if neg ≤ pos then (setVar st.1 v true, st.2 ++ [(v, true, posReason v pos neg)])
    else (setVar st.1 v false, st.2 ++ [(v, false, negReason v pos neg)])

/-- The whole first pass (greedy construction heuristic): fold the loop over
`sorted_variables_by_occurrence`, starting from the empty dict and an empty
step list; yields `(set_variables, assignment_steps)`. -/
def construct (clauses : List Clause) : Assignment × List Step :=
  (sorted_variables_by_occurrence clauses).foldl (constructStep clauses) ([], [])

/-- A flip candidate as evaluated in the refiner's inner loop:
variable to flip, hypothetical value, `net_gain`, `current_flip_multiset_cost`. -/
structure Cand where
  var : Nat
  val : Bool
  gain : Int
  cost : Nat
deriving DecidableEq

/-- Python `current_flip_multiset_cost` for a flip of variable `v` turning
the current assignment `asg` into the hypothetical `temp`: the number of
clauses satisfied now but not hypothetically, that contain the literal that
was true for `v`'s prior value (no such literal when `v` is unassigned:
`None in c` is false) and currently have exactly one true literal. -/
def flipCost (clauses : List Clause) (asg temp : Assignment) (v : Nat) : Nat :=
  let litBefore : Option Int :=
    match lookupVar asg v with
    | some b => some (if b then Int.ofNat v else -Int.ofNat v)
    | none => none
  clauses.countP (fun c =>
    is_clause_satisfied c asg && !is_clause_satisfied c temp &&
      (match litBefore with
       | some l => c.contains l
       | none => false) &&
      literal_sat_count asg c == 1)

/-- Evaluation of one literal of the target clause as a flip candidate
(the body of the refiner's `for literal_in_clause in target_clause` loop):
`var = abs(l)`, hypothetical value `l > 0`, net gain against the cached
count, and the multiset cost. -/
def evalCand (clauses : List Clause) (asg : Assignment) (cnt : Nat) (l : Int) : Cand :=
  let v := l.natAbs
  let hval := decide (0 < l)
  let temp := setVar asg v hval
  { var := v, val := hval,
    gain := (count_satisfied_clauses clauses temp : Int) - (cnt : Int),
    cost := flipCost clauses asg temp v }

/-- The candidate-update rule of the refiner's inner loop: take the new
candidate when its net gain is strictly larger, or equal with strictly
smaller multiset cost; `none` stands for the initial `-inf` gain state, so
the first candidate is always taken. -/
def pickBest (b : Option Cand) (c : Cand) : Option Cand :=
  match b with
  | none => some c
  | some d =>
    if d.gain < c.gain then some c
    else if c.gain == d.gain && c.cost < d.cost then some c
    else some d

/-- The selected flip for a target clause: fold the update rule over its
literals in clause order (Python leaves `best_flip_var_candidate = None`
exactly when the clause has no literal). -/
def chooseFlip (clauses : List Clause) (asg : Assignment) (cnt : Nat) (target : Clause) :
    Option Cand :=
  (target.map (evalCand clauses asg cnt)).foldl pickBest none

/-- Python `unsatisfied_clause_indices`, paired with the clauses themselves:
`[(i, clause) for i, clause in enumerate(clauses) if not satisfied]`. -/
def unsatEnum (clauses : List Clause) (a : Assignment) : List (Nat × Clause) :=
  clauses.enum.filter (fun p => !is_clause_satisfied p.2 a)

/-- The target clause of one refiner iteration: `random.choice` over the
unsatisfied clauses, modelled by indexing with `choice % length`. -/
def pickTarget (clauses : List Clause) (choice : Nat) (a : Assignment) : Nat × Clause :=
  let unsat := unsatEnum clauses a
  unsat.getD (choice % unsat.length) (0, [])

/-- Python's bool formatting (`True` / `False`) inside the flip f-string. -/
def pyBool (b : Bool) : String :=
  if b then "True" else "False"

/-- The justification string of an accepted flip (the Python f-string). -/
def flipReason (v : Nat) (val : Bool) (idx : Nat) (g : Int) (c : Nat) : String :=
  let pv := pyBool val
  s!"Flipped {v} to {pv} to target clause {idx} (net gain: {g}, multiset cost: {c})"

/-- One refiner iteration, after the unsatisfied set was found nonempty:
pick the target, select a candidate flip, and apply it exactly under the
acceptance rule (`net_gain > 0`, or `net_gain == 0` and the target is
currently unsatisfied but satisfied under the hypothetical flip); on
acceptance the cached count is recomputed and a step is emitted, otherwise
the state is returned unchanged with no step. -/
def refineOnce (clauses : List Clause) (choice : Nat) (asg : Assignment) (cnt : Nat) :
    Assignment × Nat × Option Step :=
  match chooseFlip clauses asg cnt (pickTarget clauses choice asg).2 with
  | none => (asg, cnt, none)
  | some cand =>
    if (0 < cand.gain) ||
        (cand.gain == 0 && !is_clause_satisfied (pickTarget clauses choice asg).2 asg &&
          is_clause_satisfied (pickTarget clauses choice asg).2 (setVar asg cand.var cand.val)) then
      (setVar asg cand.var cand.val,
        count_satisfied_clauses clauses (setVar asg cand.var cand.val),
        some (cand.var, cand.val,
          flipReason cand.var cand.val (pickTarget clauses choice asg).1 cand.gain cand.cost))
    else (asg, cnt, none)

/-- Result of the refiner loop: final assignment, cached satisfied count,
accumulated second-pass steps, and the number of loop iterations actually
entered (iterations that ran past the early `break`). -/
structure RefResult where
  asg : Assignment
  cnt : Nat
  steps : List Step
  iters : Nat
deriving DecidableEq

/-- Python's `for flip_count in range(max_flips)` loop: `fuel` is the
remaining budget, `k` the index fed to the random oracle; the loop breaks as
soon as no clause is unsatisfied, and otherwise runs `refineOnce` and
consumes one budget unit whether or not a flip was applied. -/
def refineLoop (clauses : List Clause) (rand : Nat → Nat) :
    Nat → Nat → Assignment → Nat → List Step → RefResult
  | 0, _, asg, cnt, steps => ⟨asg, cnt, steps, 0⟩
  | fuel + 1, k, asg, cnt, steps =>
    if unsatEnum clauses asg = [] then ⟨asg, cnt, steps, 0⟩
    else
      let r1 := refineOnce clauses (rand k) asg cnt
      let r := refineLoop clauses rand fuel (k + 1) r1.1 r1.2.1 (steps ++ r1.2.2.toList)
      ⟨r.asg, r.cnt, r.steps, r.iters + 1⟩

/-- Python `max_flips = num_variables * 5 if num_variables > 0 else 50`.
The variable count is kept as an `Int` because the header's count is parsed
with Python `int` and nothing forbids a negative value. -/
def max_flips (num_variables : Int) : Nat :=
  if 0 < num_variables then (num_variables * 5).toNat else 50

/-- The refiner's run inside `solve_3sat`: start from the construction
heuristic's assignment and its freshly computed satisfied count
(`max_satisfied_count`), with the full flip budget and an empty step list. -/
def refineResult (num_variables : Int) (clauses : List Clause) (rand : Nat → Nat) :
    RefResult :=
  refineLoop clauses rand (max_flips num_variables) 0 (construct clauses).1
    (count_satisfied_clauses clauses (construct clauses).1) []

/-- Python `solve_3sat` after parsing: on an empty clause list return
`(False, {}, 0, [])` (the empty dict, not `None`); otherwise run both
passes and return success iff the final satisfied count equals the number
of clauses, with the assignment kept on success and dropped (`None`) on
failure. -/
def solve_core (num_variables : Int) (clauses : List Clause) (rand : Nat → Nat) :
    Bool × Option Assignment × Nat × List Step :=
  if clauses.isEmpty then (false, some [], 0, [])
  else if count_satisfied_clauses clauses (refineResult num_variables clauses rand).asg
      = clauses.length then
    (true, some (refineResult num_variables clauses rand).asg, clauses.length,
      (construct clauses).2 ++ (refineResult num_variables clauses rand).steps)
  else
    (false, none,
      count_satisfied_clauses clauses (refineResult num_variables clauses rand).asg,
      (construct clauses).2 ++ (refineResult num_variables clauses rand).steps)

/-- A Python string handed to the parser, modelled as its character list
(the solver only strips, splits and integer-parses input text, and these
are structural over the characters). -/
abbrev PyStr := List Char

/-- Drop the leading whitespace characters. -/
def dropLeadingSpace : PyStr → PyStr
  | [] => []
  | c :: cs => if c.isWhitespace then dropLeadingSpace cs else c :: cs

/-- Python `line.strip()`: drop whitespace at both ends. -/
def pyStrip (s : PyStr) : PyStr :=
  (dropLeadingSpace (dropLeadingSpace s).reverse).reverse

/-- Python `s.startswith(p)`. -/
def pyStartsWith : PyStr → PyStr → Bool
  | _, [] => true
  | [], _ :: _ => false
  | c :: cs, p :: ps => c = p && pyStartsWith cs ps

/-- Worker of `pySplit`: `cur` holds the characters of the token being
built, in reverse. -/
def pySplitAux : PyStr → PyStr → List PyStr
  | [], cur => if cur.isEmpty then [] else [cur.reverse]
  | c :: cs, cur =>
    if c.isWhitespace then
      if cur.isEmpty then pySplitAux cs [] else cur.reverse :: pySplitAux cs []
    else pySplitAux cs (c :: cur)

/-- Python `line.split()` with no argument: split on runs of whitespace,
yielding no empty tokens. -/
def pySplit (s : PyStr) : List PyStr :=
  pySplitAux s []

/-- Value of a decimal digit character, `none` for a non-digit. -/
def digitVal (c : Char) : Option Nat :=
  if c.isDigit then some (c.toNat - 48) else none

/-- Accumulate decimal digits left to right; a non-digit fails. -/
def digitsToNatAux : PyStr → Nat → Option Nat
  | [], acc => some acc
  | c :: cs, acc =>
    match digitVal c with
    | none => none
    | some d => digitsToNatAux cs (acc * 10 + d)

/-- A nonempty run of decimal digits as a number. -/
def pyDigits : PyStr → Option Nat
  | [] => none
  | c :: cs =>
    match digitVal c with
    | none => none
    | some d => digitsToNatAux cs d

/-- Python `int(token)` on a token produced by `split()`: an optional sign
followed by at least one decimal digit; anything else raises (is `none`).
(Python's `int` also accepts exotica such as underscores or unicode digits,
which whitespace-split DIMACS tokens do not contain.) -/
def pyInt : PyStr → Option Int
  | [] => none
  | c :: cs =>
    if c = '-' then (pyDigits cs).map (fun n => -(n : Int))
    else if c = '+' then (pyDigits cs).map (fun n => (n : Int))
    else (pyDigits (c :: cs)).map (fun n => (n : Int))

/-- Token-by-token `map(int, ...)`: any unparsable token is the Python
exception, collapsing the whole parse. -/
def tokensToInts : List PyStr → Option (List Int)
  | [] => some []
  | t :: ts =>
    match pyInt t, tokensToInts ts with
    | some n, some ns => some (n :: ns)
    | _, _ => none

/-- The line loop of Python `parse_dimacs`: blank lines and lines starting
with `c` or `%` (after stripping) are skipped; a line starting with `p cnf`
sets the variable count from its third token (a missing or unparsable token
is an exception); any other line is parsed as integers whose last element is
dropped, contributing a clause when nonempty.  `none` models the exception
path, which discards everything. -/
def parseLines : List PyStr → Int → List Clause → Option (Int × List Clause)
  | [], nv, acc => some (nv, acc)
  | line :: rest, nv, acc =>
    let t := pyStrip line
    if t.isEmpty || pyStartsWith t "c".toList || pyStartsWith t "%".toList then
      parseLines rest nv acc
    else if pyStartsWith t "p cnf".toList then
      match pyInt ((pySplit t).getD 2 []) with
      | none => none
      | some n => parseLines rest n acc
    else
      match tokensToInts (pySplit t) with
      | none => none
      | some ns =>
        let clause := ns.dropLast
        if clause.isEmpty then parseLines rest nv acc
        else parseLines rest nv (acc ++ [clause])

/-- Python `parse_dimacs`: an unreadable source (`none`, the
`FileNotFoundError` branch) and any parse exception both yield the
degenerate `(0, [])`. -/
def parse_dimacs (src : Option (List PyStr)) : Int × List Clause :=
  match src with
  | none => (0, [])
  | some lines =>
    match parseLines lines 0 [] with
    | some r => r
    | none => (0, [])

/-- Python `solve_3sat` from the raw source: parse, then run both passes. -/
def solve_3sat (src : Option (List PyStr)) (rand : Nat → Nat) :
    Bool × Option Assignment × Nat × List Step :=
  solve_core (parse_dimacs src).1 (parse_dimacs src).2 rand

theorem lookupVar_nil (v : Nat) : lookupVar [] v = none := rfl

theorem lookupVar_cons (p : Nat × Bool) (rest : Assignment) (v : Nat) :
    lookupVar (p :: rest) v = if p.1 = v then some p.2 else lookupVar rest v := by
  rcases p with ⟨k, c⟩
  by_cases h : k = v
  · subst h
    simp [lookupVar, List.lookup]
  · have hb : (v == k) = false := beq_eq_false_iff_ne.mpr (Ne.symm h)
    simp [lookupVar, List.lookup, h, hb]

theorem lookupVar_setVar_self (a : Assignment) (v : Nat) (b : Bool) :
    lookupVar (setVar a v b) v = some b := by
  induction a with
  | nil => simp [setVar, lookupVar_cons]
  | cons p rest ih =>
    by_cases h : p.1 = v
    · simp [setVar, h, lookupVar_cons]
    · simp [setVar, h, lookupVar_cons, ih]

theorem lookupVar_setVar_ne (a : Assignment) (v w : Nat) (b : Bool) (h : w ≠ v) :
    lookupVar (setVar a v b) w = lookupVar a w := by
  induction a with
  | nil => simp [setVar, lookupVar_cons, lookupVar_nil, Ne.symm h]
  | cons p rest ih =>
    by_cases hp : p.1 = v
    · subst hp
      simp [setVar, lookupVar_cons, Ne.symm h]
    · simp [setVar, hp, lookupVar_cons, ih]

theorem length_setVar_of_lookup_none (a : Assignment) (v : Nat) (b : Bool)
    (h : lookupVar a v = none) : (setVar a v b).length = a.length + 1 := by
  induction a with
  | nil => simp [setVar]
  | cons p rest ih =>
    rw [lookupVar_cons] at h
    by_cases hp : p.1 = v
    · simp [hp] at h
    · simp [hp] at h
      simp [setVar, hp, ih h]

theorem litTrue_iff (a : Assignment) (l : Int) :
    litTrue a l = true ↔
      (0 < l ∧ lookupVar a l.natAbs = some true) ∨
        (l < 0 ∧ lookupVar a l.natAbs = some false) := by
  cases h : lookupVar a l.natAbs with
  | none => simp [litTrue, h]
  | some b => cases b <;> simp [litTrue, h]

theorem is_clause_satisfied_iff (clause : Clause) (assignment : Assignment) :
    is_clause_satisfied clause assignment = true ↔
      ∃ l ∈ clause,
        (0 < l ∧ lookupVar assignment l.natAbs = some true) ∨
          (l < 0 ∧ lookupVar assignment l.natAbs = some false) := by
  simp [is_clause_satisfied, List.any_eq_true, litTrue_iff]

theorem mem_insertAsc (x a : Nat) (l : List Nat) :
    a ∈ insertAsc x l ↔ a = x ∨ a ∈ l := by
  induction l with
  | nil => simp [insertAsc]
  | cons y ys ih =>
    by_cases h : x ≤ y
    · simp [insertAsc, h]
    · simp only [insertAsc, if_neg h, List.mem_cons, ih]
      tauto

theorem insertAsc_perm (x : Nat) (l : List Nat) : (insertAsc x l).Perm (x :: l) := by
  induction l with
  | nil => simp [insertAsc]
  | cons y ys ih =>
    by_cases h : x ≤ y
    · simp [insertAsc, h]
    · simp only [insertAsc, if_neg h]
      exact (ih.cons y).trans (List.Perm.swap x y ys)

theorem sortAsc_perm (l : List Nat) : (sortAsc l).Perm l := by
  induction l with
  | nil => simp [sortAsc]
  | cons x xs ih => exact (insertAsc_perm x (sortAsc xs)).trans (ih.cons x)

theorem pairwise_le_insertAsc (x : Nat) (l : List Nat) (h : l.Pairwise (· ≤ ·)) :
    (insertAsc x l).Pairwise (· ≤ ·) := by
  induction l with
  | nil => simp [insertAsc]
  | cons y ys ih =>
    rcases List.pairwise_cons.mp h with ⟨hy, hys⟩
    by_cases hx : x ≤ y
    · simp only [insertAsc, if_pos hx]
      refine List.pairwise_cons.mpr ⟨?_, h⟩
      intro z hz
      rcases List.mem_cons.mp hz with hz | hz
      · exact hz ▸ hx
      · exact le_trans hx (hy z hz)
    · simp only [insertAsc, if_neg hx]
      refine List.pairwise_cons.mpr ⟨?_, ih hys⟩
      intro z hz
      rcases (mem_insertAsc x z ys).mp hz with hz | hz
      · exact hz ▸ le_of_not_le hx
      · exact hy z hz

theorem pairwise_le_sortAsc (l : List Nat) : (sortAsc l).Pairwise (· ≤ ·) := by
  induction l with
  | nil => simp [sortAsc]
  | cons x xs ih => exact pairwise_le_insertAsc x (sortAsc xs) ih

theorem all_unique_vars_nodup (clauses : List Clause) : (all_unique_vars clauses).Nodup :=
  ((sortAsc_perm _).symm.nodup_iff).mp (List.nodup_dedup _)

theorem all_unique_vars_pairwise_lt (clauses : List Clause) :
    (all_unique_vars clauses).Pairwise (· < ·) := by
  have h1 := pairwise_le_sortAsc ((clauses.flatten.map Int.natAbs).dedup)
  have h2 : (all_unique_vars clauses).Pairwise (· ≠ ·) := all_unique_vars_nodup clauses
  exact (h1.and h2).imp (fun hab => lt_of_le_of_ne hab.1 hab.2)

theorem mem_all_unique_vars (clauses : List Clause) (v : Nat) :
    v ∈ all_unique_vars clauses ↔ ∃ c ∈ clauses, ∃ l ∈ c, l.natAbs = v := by
  rw [all_unique_vars, (sortAsc_perm _).mem_iff, List.mem_dedup]
  simp [List.mem_flatten]

/-- The strict processing order of the construction heuristic: earlier
variables have a strictly larger total occurrence count, or an equal count
and a smaller id. -/
def OccOrder (key : Nat → Nat) (a b : Nat) : Prop :=
  key b < key a ∨ (key a = key b ∧ a < b)

theorem mem_insertDescBy (key : Nat → Nat) (x a : Nat) (l : List Nat) :
    a ∈ insertDescBy key x l ↔ a = x ∨ a ∈ l := by
  induction l with
  | nil => simp [insertDescBy]
  | cons y ys ih =>
    by_cases h : key y ≤ key x
    · simp [insertDescBy, h]
    · simp only [insertDescBy, if_neg h, List.mem_cons, ih]
      tauto

theorem insertDescBy_perm (key : Nat → Nat) (x : Nat) (l : List Nat) :
    (insertDescBy key x l).Perm (x :: l) := by
  induction l with
  | nil => simp [insertDescBy]
  | cons y ys ih =>
    by_cases h : key y ≤ key x
    · simp [insertDescBy, h]
    · simp only [insertDescBy, if_neg h]
      exact (ih.cons y).trans (List.Perm.swap x y ys)

theorem sortDescBy_perm (key : Nat → Nat) (l : List Nat) : (sortDescBy key l).Perm l := by
  induction l with
  | nil => simp [sortDescBy]
  | cons x xs ih => exact (insertDescBy_perm key x (sortDescBy key xs)).trans (ih.cons x)

theorem pairwise_insertDescBy (key : Nat → Nat) (x : Nat) (l : List Nat)
    (hl : l.Pairwise (OccOrder key))
    (hx : ∀ y ∈ l, (key y ≤ key x → OccOrder key x y) ∧ (key x < key y → OccOrder key y x)) :
    (insertDescBy key x l).Pairwise (OccOrder key) := by
  induction l with
  | nil => simp [insertDescBy]
  | cons y ys ih =>
    rcases List.pairwise_cons.mp hl with ⟨hy, hys⟩
    by_cases h : key y ≤ key x
    · simp only [insertDescBy, if_pos h]
      refine List.pairwise_cons.mpr ⟨?_, hl⟩
      intro z hz
      rcases List.mem_cons.mp hz with hz | hz
      · exact hz ▸ (hx y (by simp)).1 h
      · have hzy : key z ≤ key y := by
          rcases hy z hz with hlt | ⟨heq, _⟩
          · exact le_of_lt hlt
          · exact le_of_eq heq.symm
        exact (hx z (by simp [hz])).1 (le_trans hzy h)
    · simp only [insertDescBy, if_neg h]
      refine List.pairwise_cons.mpr ⟨?_, ih hys (fun z hz => hx z (by simp [hz]))⟩
      intro z hz
      rcases (mem_insertDescBy key x z ys).mp hz with hz | hz
      · exact hz ▸ (hx y (by simp)).2 (lt_of_not_le h)
      · exact hy z hz

theorem pairwise_sortDescBy (key : Nat → Nat) (l : List Nat)
    (h : l.Pairwise (· < ·)) : (sortDescBy key l).Pairwise (OccOrder key) := by
  induction l with
  | nil => simp [sortDescBy]
  | cons x xs ih =>
    rcases List.pairwise_cons.mp h with ⟨hx, hxs⟩
    refine pairwise_insertDescBy key x (sortDescBy key xs) (ih hxs) ?_
    intro y hy
    have hyx : x < y := hx y ((sortDescBy_perm key xs).mem_iff.mp hy)
    constructor
    · intro hk
      rcases lt_or_eq_of_le hk with hk | hk
      · exact Or.inl hk
      · exact Or.inr ⟨hk.symm, hyx⟩
    · intro hk
      exact Or.inl hk

theorem constructStep_fresh (clauses : List Clause) (asg : Assignment) (steps : List Step)
    (v : Nat) (h : lookupVar asg v = none) :
    constructStep clauses (asg, steps) v =
      (setVar asg v (decide (occCount clauses (-Int.ofNat v) ≤ occCount clauses (Int.ofNat v))),
        steps ++ [constructRecord clauses v]) := by
  unfold constructStep constructRecord
  simp only [h, Option.isSome_none, Bool.false_eq_true, if_false]
  by_cases hc : occCount clauses (-Int.ofNat v) ≤ occCount clauses (Int.ofNat v)
  · rw [if_pos hc, if_pos hc, decide_eq_true hc]
  · rw [if_neg hc, if_neg hc, decide_eq_false hc]

theorem construct_foldl (clauses : List Clause) (l : List Nat) (hnd : l.Nodup)
    (asg : Assignment) (steps : List Step)
    (hfresh : ∀ v ∈ l, lookupVar asg v = none) :
    (∀ v ∈ l, lookupVar (l.foldl (constructStep clauses) (asg, steps)).1 v =
        some (decide (occCount clauses (-Int.ofNat v) ≤ occCount clauses (Int.ofNat v))))
    ∧ (∀ w, w ∉ l →
        lookupVar (l.foldl (constructStep clauses) (asg, steps)).1 w = lookupVar asg w)
    ∧ (l.foldl (constructStep clauses) (asg, steps)).2 = steps ++ l.map (constructRecord clauses)
    ∧ (l.foldl (constructStep clauses) (asg, steps)).1.length = asg.length + l.length := by
  induction l generalizing asg steps with
  | nil => simp
  | cons v vs ih =>
    rcases List.nodup_cons.mp hnd with ⟨hv, hvs⟩
    have hfr : lookupVar asg v = none := hfresh v (by simp)
    have hstep := constructStep_fresh clauses asg steps v hfr
    have hfresh' : ∀ w ∈ vs, lookupVar (setVar asg v
        (decide (occCount clauses (-Int.ofNat v) ≤ occCount clauses (Int.ofNat v)))) w = none := by
      intro w hw
      have hwv : w ≠ v := by
        intro he
        subst he
        exact hv hw
      rw [lookupVar_setVar_ne _ _ _ _ hwv]
      exact hfresh w (by simp [hw])
    have hrec := ih hvs _ (steps ++ [constructRecord clauses v]) hfresh'
    rw [List.foldl_cons, hstep]
    refine ⟨?_, ?_, ?_, ?_⟩
    · intro u hu
      rcases List.mem_cons.mp hu with hu | hu
      · subst hu
        rw [hrec.2.1 u hv, lookupVar_setVar_self]
      · exact hrec.1 u hu
    · intro w hw
      have hwv : w ≠ v := fun he => hw (by simp [he])
      have hwvs : w ∉ vs := fun he => hw (by simp [he])
      rw [hrec.2.1 w hwvs, lookupVar_setVar_ne _ _ _ _ hwv]
    · rw [hrec.2.2.1]
      simp
    · rw [hrec.2.2.2, length_setVar_of_lookup_none _ _ _ hfr, List.length_cons]
      omega

theorem sorted_variables_nodup (clauses : List Clause) :
    (sorted_variables_by_occurrence clauses).Nodup :=
  ((sortDescBy_perm _ _).symm.nodup_iff).mp (all_unique_vars_nodup clauses)

theorem construct_spec (clauses : List Clause) :
    (∀ v ∈ sorted_variables_by_occurrence clauses,
      lookupVar (construct clauses).1 v =
        some (decide (occCount clauses (-Int.ofNat v) ≤ occCount clauses (Int.ofNat v))))
    ∧ (∀ w, w ∉ sorted_variables_by_occurrence clauses →
        lookupVar (construct clauses).1 w = none)
    ∧ (construct clauses).2 =
        (sorted_variables_by_occurrence clauses).map (constructRecord clauses)
    ∧ (construct clauses).1.length = (sorted_variables_by_occurrence clauses).length := by
  have h := construct_foldl clauses (sorted_variables_by_occurrence clauses)
    (sorted_variables_nodup clauses) [] [] (fun v _ => rfl)
  exact ⟨h.1, fun w hw => h.2.1 w hw, by simpa using h.2.2.1, by simpa using h.2.2.2⟩

theorem mem_sorted_variables (clauses : List Clause) (v : Nat) :
    v ∈ sorted_variables_by_occurrence clauses ↔ ∃ c ∈ clauses, ∃ l ∈ c, l.natAbs = v :=
  ((sortDescBy_perm _ _).mem_iff).trans (mem_all_unique_vars clauses v)


/-- C5: every variable processed by the construction heuristic ends up
assigned `true` exactly when the number of clauses containing the positive
literal is at least the number containing the negative literal — both the
original occurrence counts of the unmodified formula — and the trace is one
decision record per processed variable, in processing order, citing both
counts in its justification. -/
theorem claim_C5_construction_polarity (clauses : List Clause) :
    (∀ v ∈ sorted_variables_by_occurrence clauses,
      lookupVar (construct clauses).1 v =
        some (decide (occCount clauses (-Int.ofNat v) ≤ occCount clauses (Int.ofNat v))))
    ∧ (construct clauses).2 =
        (sorted_variables_by_occurrence clauses).map (constructRecord clauses) :=
  ⟨(construct_spec clauses).1, (construct_spec clauses).2.2.1⟩

/-- C6: the construction heuristic processes exactly the distinct variables
of the formula, in descending order of total occurrence count with ties
broken by ascending variable id. -/
theorem claim_C6_processing_order (clauses : List Clause) :
    (sorted_variables_by_occurrence clauses).Perm (all_unique_vars clauses)
    ∧ (sorted_variables_by_occurrence clauses).Pairwise (OccOrder (totalOcc clauses))
    ∧ (∀ v, v ∈ sorted_variables_by_occurrence clauses ↔
        ∃ c ∈ clauses, ∃ l ∈ c, l.natAbs = v) :=
  ⟨sortDescBy_perm _ _,
   pairwise_sortDescBy _ _ (all_unique_vars_pairwise_lt clauses),
   mem_sorted_variables clauses⟩

/-- C7 (amended): the construction assignment is total over the variables
that occur in the clauses — a variable is present in it exactly when it
occurs in some clause — and its size is the number of distinct occurring
variables (which equals the declared `N` only when every variable of
`[1, N]` occurs in a clause). -/
theorem claim_C7_amended_totality (clauses : List Clause) :
    (∀ v, (lookupVar (construct clauses).1 v).isSome = true ↔
        ∃ c ∈ clauses, ∃ l ∈ c, l.natAbs = v)
    ∧ (construct clauses).1.length = (all_unique_vars clauses).length := by
  have hs := construct_spec clauses
  constructor
  · intro v
    constructor
    · intro hv
      by_cases hm : v ∈ sorted_variables_by_occurrence clauses
      · exact (mem_sorted_variables clauses v).mp hm
      · rw [hs.2.1 v hm] at hv
        simp at hv
    · intro hocc
      rw [hs.1 v ((mem_sorted_variables clauses v).mpr hocc)]
      rfl
  · rw [hs.2.2.2]
    exact (sortDescBy_perm _ _).length_eq

/-- C7 counterexample: the DIMACS header may declare more variables than
occur in the clauses; for `p cnf 2 1` with the single clause `(1)` the
construction assignment has size 1 ≠ 2 and variable 2 — inside `[1, N]` —
is absent, although the formula has a clause. -/
theorem claim_C7_counterexample :
    parse_dimacs (some ["p cnf 2 1".toList, "1 0".toList]) = (2, [[1]])
    ∧ ([[(1 : Int)]] : List Clause) ≠ []
    ∧ (construct [[(1 : Int)]]).1.length ≠ 2
    ∧ lookupVar (construct [[(1 : Int)]]).1 2 = none :=
  ⟨by decide, by simp, by decide, by decide⟩

/-- Strictly-better order on flip candidates, as the inner loop's update rule
sees it: strictly larger net gain, or equal gain and strictly smaller
multiset cost. -/
def Better (c d : Cand) : Prop :=
  d.gain < c.gain ∨ (c.gain = d.gain ∧ c.cost < d.cost)

theorem better_trans (a b c : Cand) (h1 : Better a b) (h2 : Better b c) : Better a c := by
  unfold Better at *
  omega

theorem better_shift (a b c : Cand) (h1 : Better a b) (h2 : ¬ Better c b) : Better a c := by
  unfold Better at *
  omega

theorem pickBest_some_eq (d c : Cand) : pickBest (some d) c =
    if d.gain < c.gain then some c
    else if c.gain == d.gain && decide (c.cost < d.cost) then some c else some d := rfl

theorem pickBest_some_of_better (d c : Cand) (h : Better c d) :
    pickBest (some d) c = some c := by
  rw [pickBest_some_eq]
  rcases h with h1 | ⟨h2, h3⟩
  · rw [if_pos h1]
  · have hc : (c.gain == d.gain && decide (c.cost < d.cost)) = true := by
      simp [h2, h3]
    rw [if_neg (by omega), if_pos hc]

theorem pickBest_some_of_not_better (d c : Cand) (h : ¬ Better c d) :
    pickBest (some d) c = some d := by
  unfold Better at h
  push_neg at h
  rw [pickBest_some_eq]
  have hc : (c.gain == d.gain && decide (c.cost < d.cost)) = false := by
    by_cases h2 : c.gain = d.gain
    · have := h.2 h2
      simp [h2]
      omega
    · simp [h2]
  rw [if_neg (by omega), if_neg (by simp [hc])]

theorem foldl_pickBest_split (l : List Cand) (c : Cand) :
    ∃ pre res post, l.foldl pickBest (some c) = some res ∧
      c :: l = pre ++ res :: post ∧ (∀ d ∈ pre, Better res d) ∧ (∀ d ∈ post, ¬ Better d res) := by
  induction l generalizing c with
  | nil => exact ⟨[], c, [], rfl, rfl, by simp, by simp⟩
  | cons x xs ih =>
    by_cases hB : Better x c
    · rcases ih x with ⟨pre, res, post, hfold, hsplit, hpre, hpost⟩
      refine ⟨c :: pre, res, post, ?_, ?_, ?_, hpost⟩
      · rw [List.foldl_cons, pickBest_some_of_better c x hB]
        exact hfold
      · rw [List.cons_append, ← hsplit]
      · intro d hd
        rcases List.mem_cons.mp hd with hd | hd
        · subst hd
          have hresx : Better res x ∨ res = x := by
            rcases pre with _ | ⟨p, pre₂⟩
            · right
              have h0 := hsplit
              simp at h0
              exact h0.1.symm
            · left
              have h0 := hsplit
              simp at h0
              have hp : p = x := h0.1.symm
              exact hp ▸ hpre p (by simp)
          rcases hresx with hrx | hrx
          · exact better_trans res x d hrx hB
          · exact hrx ▸ hB
        · exact hpre d hd
    · rcases ih c with ⟨pre, res, post, hfold, hsplit, hpre, hpost⟩
      rcases pre with _ | ⟨p, pre₂⟩
      · have h0 := hsplit
        simp at h0
        refine ⟨[], res, x :: post, ?_, ?_, by simp, ?_⟩
        · rw [List.foldl_cons, pickBest_some_of_not_better c x hB]
          exact hfold
        · simp [h0.1.symm, h0.2.symm]
        · intro d hd
          rcases List.mem_cons.mp hd with hd | hd
          · subst hd
            rw [← h0.1]
            exact hB
          · exact hpost d hd
      · have h0 := hsplit
        simp at h0
        have hresc : Better res c := h0.1.symm ▸ hpre p (by simp)
        refine ⟨c :: x :: pre₂, res, post, ?_, ?_, ?_, hpost⟩
        · rw [List.foldl_cons, pickBest_some_of_not_better c x hB]
          exact hfold
        · rw [List.cons_append, List.cons_append, ← h0.2]
        · intro d hd
          rcases List.mem_cons.mp hd with hd | hd
          · exact hd ▸ hresc
          · rcases List.mem_cons.mp hd with hd2 | hd2
            · subst hd2
              exact better_shift res c d hresc hB
            · exact hpre d (by simp [hd2])

theorem chooseFlip_cases (clauses : List Clause) (asg : Assignment) (cnt : Nat)
    (target : Clause) (cand : Cand)
    (h : chooseFlip clauses asg cnt target = some cand) :
    ∃ pre post, target.map (evalCand clauses asg cnt) = pre ++ cand :: post
      ∧ (∀ d ∈ pre, Better cand d) ∧ (∀ d ∈ post, ¬ Better d cand) := by
  cases target with
  | nil => exact absurd h (by simp [chooseFlip])
  | cons t ts =>
    have he : chooseFlip clauses asg cnt (t :: ts) =
        (ts.map (evalCand clauses asg cnt)).foldl pickBest
          (some (evalCand clauses asg cnt t)) := rfl
    rcases foldl_pickBest_split (ts.map (evalCand clauses asg cnt))
        (evalCand clauses asg cnt t) with ⟨pre, res, post, hf, hs, hpre, hpost⟩
    rw [he, hf] at h
    have hres : res = cand := by
      injection h
    subst hres
    exact ⟨pre, post, by rw [List.map_cons, hs], hpre, hpost⟩

theorem chooseFlip_mem (clauses : List Clause) (asg : Assignment) (cnt : Nat)
    (target : Clause) (cand : Cand)
    (h : chooseFlip clauses asg cnt target = some cand) :
    cand ∈ target.map (evalCand clauses asg cnt) := by
  rcases chooseFlip_cases clauses asg cnt target cand h with ⟨pre, post, hs, _, _⟩
  rw [hs]
  simp

theorem chooseFlip_gain_eq (clauses : List Clause) (asg : Assignment) (cnt : Nat)
    (target : Clause) (cand : Cand)
    (h : chooseFlip clauses asg cnt target = some cand) :
    cand.gain = (count_satisfied_clauses clauses (setVar asg cand.var cand.val) : Int)
      - (cnt : Int) := by
  rcases List.mem_map.mp (chooseFlip_mem clauses asg cnt target cand h) with ⟨l, _, he⟩
  rw [← he]
  rfl

theorem refineOnce_of_none (clauses : List Clause) (choice : Nat) (asg : Assignment)
    (cnt : Nat) (h : chooseFlip clauses asg cnt (pickTarget clauses choice asg).2 = none) :
    refineOnce clauses choice asg cnt = (asg, cnt, none) := by
  unfold refineOnce
  rw [h]

theorem refineOnce_of_accept (clauses : List Clause) (choice : Nat) (asg : Assignment)
    (cnt : Nat) (cand : Cand)
    (h : chooseFlip clauses asg cnt (pickTarget clauses choice asg).2 = some cand)
    (ha : ((0 < cand.gain) ||
        (cand.gain == 0 && !is_clause_satisfied (pickTarget clauses choice asg).2 asg &&
          is_clause_satisfied (pickTarget clauses choice asg).2
            (setVar asg cand.var cand.val))) = true) :
    refineOnce clauses choice asg cnt =
      (setVar asg cand.var cand.val,
        count_satisfied_clauses clauses (setVar asg cand.var cand.val),
        some (cand.var, cand.val,
          flipReason cand.var cand.val (pickTarget clauses choice asg).1 cand.gain cand.cost)) := by
  unfold refineOnce
  rw [h]
  simp only [ha, if_true]

theorem refineOnce_of_reject (clauses : List Clause) (choice : Nat) (asg : Assignment)
    (cnt : Nat) (cand : Cand)
    (h : chooseFlip clauses asg cnt (pickTarget clauses choice asg).2 = some cand)
    (ha : ((0 < cand.gain) ||
        (cand.gain == 0 && !is_clause_satisfied (pickTarget clauses choice asg).2 asg &&
          is_clause_satisfied (pickTarget clauses choice asg).2
            (setVar asg cand.var cand.val))) = false) :
    refineOnce clauses choice asg cnt = (asg, cnt, none) := by
  unfold refineOnce
  rw [h]
  simp only [ha, Bool.false_eq_true, if_false]

theorem refineOnce_count (clauses : List Clause) (choice : Nat) (asg : Assignment)
    (cnt : Nat) (h : cnt = count_satisfied_clauses clauses asg) :
    (refineOnce clauses choice asg cnt).2.1 =
      count_satisfied_clauses clauses (refineOnce clauses choice asg cnt).1
    ∧ cnt ≤ (refineOnce clauses choice asg cnt).2.1 := by
  cases hc : chooseFlip clauses asg cnt (pickTarget clauses choice asg).2 with
  | none =>
    rw [refineOnce_of_none clauses choice asg cnt hc]
    exact ⟨h, le_refl cnt⟩
  | some cand =>
    cases ha : ((0 < cand.gain) ||
        (cand.gain == 0 && !is_clause_satisfied (pickTarget clauses choice asg).2 asg &&
          is_clause_satisfied (pickTarget clauses choice asg).2
            (setVar asg cand.var cand.val))) with
    | false =>
      rw [refineOnce_of_reject clauses choice asg cnt cand hc ha]
      exact ⟨h, le_refl cnt⟩
    | true =>
      rw [refineOnce_of_accept clauses choice asg cnt cand hc ha]
      refine ⟨rfl, ?_⟩
      show cnt ≤ count_satisfied_clauses clauses (setVar asg cand.var cand.val)
      have hg := chooseFlip_gain_eq clauses asg cnt (pickTarget clauses choice asg).2 cand hc
      have hge : 0 ≤ cand.gain := by
        simp at ha
        rcases ha with h1 | ⟨h2, _⟩ <;> omega
      omega

theorem refineLoop_zero (clauses : List Clause) (rand : Nat → Nat) (k : Nat)
    (asg : Assignment) (cnt : Nat) (steps : List Step) :
    refineLoop clauses rand 0 k asg cnt steps = ⟨asg, cnt, steps, 0⟩ := rfl

theorem refineLoop_succ_done (clauses : List Clause) (rand : Nat → Nat) (fuel k : Nat)
    (asg : Assignment) (cnt : Nat) (steps : List Step) (h : unsatEnum clauses asg = []) :
    refineLoop clauses rand (fuel + 1) k asg cnt steps = ⟨asg, cnt, steps, 0⟩ := by
  unfold refineLoop
  rw [if_pos h]

theorem refineLoop_succ_cont (clauses : List Clause) (rand : Nat → Nat) (fuel k : Nat)
    (asg : Assignment) (cnt : Nat) (steps : List Step) (h : unsatEnum clauses asg ≠ []) :
    refineLoop clauses rand (fuel + 1) k asg cnt steps =
      ⟨(refineLoop clauses rand fuel (k + 1) (refineOnce clauses (rand k) asg cnt).1
          (refineOnce clauses (rand k) asg cnt).2.1
          (steps ++ (refineOnce clauses (rand k) asg cnt).2.2.toList)).asg,
        (refineLoop clauses rand fuel (k + 1) (refineOnce clauses (rand k) asg cnt).1
          (refineOnce clauses (rand k) asg cnt).2.1
          (steps ++ (refineOnce clauses (rand k) asg cnt).2.2.toList)).cnt,
        (refineLoop clauses rand fuel (k + 1) (refineOnce clauses (rand k) asg cnt).1
          (refineOnce clauses (rand k) asg cnt).2.1
          (steps ++ (refineOnce clauses (rand k) asg cnt).2.2.toList)).steps,
        (refineLoop clauses rand fuel (k + 1) (refineOnce clauses (rand k) asg cnt).1
          (refineOnce clauses (rand k) asg cnt).2.1
          (steps ++ (refineOnce clauses (rand k) asg cnt).2.2.toList)).iters + 1⟩ := by
  have h0 : refineLoop clauses rand (fuel + 1) k asg cnt steps =
      if unsatEnum clauses asg = [] then (⟨asg, cnt, steps, 0⟩ : RefResult)
      else
        ⟨(refineLoop clauses rand fuel (k + 1) (refineOnce clauses (rand k) asg cnt).1
            (refineOnce clauses (rand k) asg cnt).2.1
            (steps ++ (refineOnce clauses (rand k) asg cnt).2.2.toList)).asg,
          (refineLoop clauses rand fuel (k + 1) (refineOnce clauses (rand k) asg cnt).1
            (refineOnce clauses (rand k) asg cnt).2.1
            (steps ++ (refineOnce clauses (rand k) asg cnt).2.2.toList)).cnt,
          (refineLoop clauses rand fuel (k + 1) (refineOnce clauses (rand k) asg cnt).1
            (refineOnce clauses (rand k) asg cnt).2.1
            (steps ++ (refineOnce clauses (rand k) asg cnt).2.2.toList)).steps,
          (refineLoop clauses rand fuel (k + 1) (refineOnce clauses (rand k) asg cnt).1
            (refineOnce clauses (rand k) asg cnt).2.1
            (steps ++ (refineOnce clauses (rand k) asg cnt).2.2.toList)).iters + 1⟩ := rfl
  rw [h0, if_neg h]

theorem refineLoop_iters_le (clauses : List Clause) (rand : Nat → Nat) :
    ∀ fuel k asg cnt steps, (refineLoop clauses rand fuel k asg cnt steps).iters ≤ fuel := by
  intro fuel
  induction fuel with
  | zero =>
    intro k asg cnt steps
    rw [refineLoop_zero]
  | succ n ih =>
    intro k asg cnt steps
    by_cases h : unsatEnum clauses asg = []
    · rw [refineLoop_succ_done clauses rand n k asg cnt steps h]
      exact Nat.zero_le _
    · rw [refineLoop_succ_cont clauses rand n k asg cnt steps h]
      exact Nat.succ_le_succ (ih _ _ _ _)

theorem refineLoop_early_stop (clauses : List Clause) (rand : Nat → Nat) :
    ∀ fuel k asg cnt steps, (refineLoop clauses rand fuel k asg cnt steps).iters < fuel →
      unsatEnum clauses (refineLoop clauses rand fuel k asg cnt steps).asg = [] := by
  intro fuel
  induction fuel with
  | zero =>
    intro k asg cnt steps h
    exact absurd h (by simp)
  | succ n ih =>
    intro k asg cnt steps h
    by_cases hu : unsatEnum clauses asg = []
    · rw [refineLoop_succ_done clauses rand n k asg cnt steps hu]
      exact hu
    · rw [refineLoop_succ_cont clauses rand n k asg cnt steps hu] at h ⊢
      exact ih _ _ _ _ (Nat.lt_of_succ_lt_succ h)

theorem refineLoop_count (clauses : List Clause) (rand : Nat → Nat) :
    ∀ fuel k asg cnt steps, cnt = count_satisfied_clauses clauses asg →
      (refineLoop clauses rand fuel k asg cnt steps).cnt =
        count_satisfied_clauses clauses (refineLoop clauses rand fuel k asg cnt steps).asg
      ∧ cnt ≤ (refineLoop clauses rand fuel k asg cnt steps).cnt := by
  intro fuel
  induction fuel with
  | zero =>
    intro k asg cnt steps h
    rw [refineLoop_zero]
    exact ⟨h, le_refl cnt⟩
  | succ n ih =>
    intro k asg cnt steps h
    by_cases hu : unsatEnum clauses asg = []
    · rw [refineLoop_succ_done clauses rand n k asg cnt steps hu]
      exact ⟨h, le_refl cnt⟩
    · rw [refineLoop_succ_cont clauses rand n k asg cnt steps hu]
      have h1 := refineOnce_count clauses (rand k) asg cnt h
      have h2 := ih (k + 1) (refineOnce clauses (rand k) asg cnt).1
        (refineOnce clauses (rand k) asg cnt).2.1
        (steps ++ (refineOnce clauses (rand k) asg cnt).2.2.toList) h1.1
      exact ⟨h2.1, le_trans h1.2 h2.2⟩

/-- C9: a clause is satisfied exactly when some literal of it has its
variable present in the assignment with the value matching the literal's
polarity; in particular a clause whose variables are all absent from the
assignment is unsatisfied, never vacuously true and never by reading
absence as false. -/
theorem claim_C9_absence_semantics (clause : Clause) (assignment : Assignment) :
    (is_clause_satisfied clause assignment = true ↔
      ∃ l ∈ clause,
        (0 < l ∧ lookupVar assignment l.natAbs = some true) ∨
          (l < 0 ∧ lookupVar assignment l.natAbs = some false))
    ∧ ((∀ l ∈ clause, lookupVar assignment l.natAbs = none) →
        is_clause_satisfied clause assignment = false) := by
  refine ⟨is_clause_satisfied_iff clause assignment, ?_⟩
  intro habs
  cases hs : is_clause_satisfied clause assignment
  · rfl
  · rcases (is_clause_satisfied_iff clause assignment).mp hs with ⟨l, hl, hcase⟩
    rcases hcase with ⟨_, he⟩ | ⟨_, he⟩ <;> rw [habs l hl] at he <;> cases he

/-- C8: the refiner performs at most `5 × N` flip-attempt iterations when
`N > 0` and at most 50 when `N = 0`, and it stops before exhausting the
budget only when no clause is left unsatisfied. -/
theorem claim_C8_flip_budget (num_variables : Int) (clauses : List Clause)
    (rand : Nat → Nat) :
    (0 < num_variables →
      (refineResult num_variables clauses rand).iters ≤ 5 * num_variables.toNat)
    ∧ (num_variables = 0 → (refineResult num_variables clauses rand).iters ≤ 50)
    ∧ ((refineResult num_variables clauses rand).iters < max_flips num_variables →
        unsatEnum clauses (refineResult num_variables clauses rand).asg = []) := by
  have hle := refineLoop_iters_le clauses rand (max_flips num_variables) 0
    (construct clauses).1 (count_satisfied_clauses clauses (construct clauses).1) []
  refine ⟨?_, ?_, ?_⟩
  · intro h
    have hm : max_flips num_variables = (num_variables * 5).toNat := by
      unfold max_flips
      rw [if_pos h]
    have hle' : (refineResult num_variables clauses rand).iters ≤ max_flips num_variables := hle
    rw [hm] at hle'
    omega
  · intro h
    have hm : max_flips num_variables = 50 := by
      unfold max_flips
      rw [if_neg (by omega)]
    have hle' : (refineResult num_variables clauses rand).iters ≤ max_flips num_variables := hle
    omega
  · intro h
    exact refineLoop_early_stop clauses rand (max_flips num_variables) 0
      (construct clauses).1 (count_satisfied_clauses clauses (construct clauses).1) [] h

/-- C10: the satisfied-clause count is monotonically non-decreasing through
refinement: an iteration started with a correctly cached count ends with at
least that many satisfied clauses, and the final refined assignment
satisfies at least as many clauses as the construction heuristic's. -/
theorem claim_C10_monotone_count (clauses : List Clause) :
    (∀ choice asg cnt, cnt = count_satisfied_clauses clauses asg →
      cnt ≤ count_satisfied_clauses clauses (refineOnce clauses choice asg cnt).1)
    ∧ (∀ (num_variables : Int) (rand : Nat → Nat),
        count_satisfied_clauses clauses (construct clauses).1 ≤
          count_satisfied_clauses clauses (refineResult num_variables clauses rand).asg)
    ∧ (∀ (num_variables : Int) (rand : Nat → Nat), clauses ≠ [] →
        count_satisfied_clauses clauses (construct clauses).1 ≤
          (solve_core num_variables clauses rand).2.2.1) := by
  have hfin : ∀ (nv : Int) (rand : Nat → Nat),
      count_satisfied_clauses clauses (construct clauses).1 ≤
        count_satisfied_clauses clauses (refineResult nv clauses rand).asg := by
    intro nv rand
    have h2 := refineLoop_count clauses rand (max_flips nv) 0 (construct clauses).1
      (count_satisfied_clauses clauses (construct clauses).1) [] rfl
    show count_satisfied_clauses clauses (construct clauses).1 ≤
      count_satisfied_clauses clauses
        (refineLoop clauses rand (max_flips nv) 0 (construct clauses).1
          (count_satisfied_clauses clauses (construct clauses).1) []).asg
    exact h2.1 ▸ h2.2
  refine ⟨?_, hfin, ?_⟩
  · intro choice asg cnt h
    have h1 := refineOnce_count clauses choice asg cnt h
    exact h1.1 ▸ h1.2
  · intro nv rand h
    have hne : clauses.isEmpty = false := by
      simp [h]
    unfold solve_core
    rw [hne]
    simp only [Bool.false_eq_true, if_false]
    by_cases hc : count_satisfied_clauses clauses (refineResult nv clauses rand).asg
        = clauses.length
    · rw [if_pos hc]
      exact le_trans (hfin nv rand) (le_of_eq hc)
    · rw [if_neg hc]
      exact hfin nv rand

/-- C1: with at least one clause, `solve` succeeds exactly when the final
refined assignment satisfies every clause, returning that assignment and
the full clause count; otherwise it reports failure with the final
satisfied count and no assignment, discarding the computed near-satisfying
assignment from the result. -/
theorem claim_C1_termination_contract (num_variables : Int) (clauses : List Clause)
    (rand : Nat → Nat) (h : clauses ≠ []) :
    (count_satisfied_clauses clauses (refineResult num_variables clauses rand).asg =
        clauses.length →
      solve_core num_variables clauses rand =
        (true, some (refineResult num_variables clauses rand).asg, clauses.length,
          (construct clauses).2 ++ (refineResult num_variables clauses rand).steps))
    ∧ (count_satisfied_clauses clauses (refineResult num_variables clauses rand).asg ≠
        clauses.length →
      solve_core num_variables clauses rand =
        (false, none,
          count_satisfied_clauses clauses (refineResult num_variables clauses rand).asg,
          (construct clauses).2 ++ (refineResult num_variables clauses rand).steps)) := by
  have hne : clauses.isEmpty = false := by
    simp [h]
  constructor <;> intro hc <;> unfold solve_core <;> rw [hne] <;> simp only [Bool.false_eq_true, if_false]
  · rw [if_pos hc]
  · rw [if_neg hc]

/-- Closed instance of the C1 contract, at the spec's own example formula:
the constructed assignment already satisfies all three clauses, so `solve`
returns success with the assignment and the count 3. -/
theorem claim_C1_witness :
    solve_core 3 [[1, 2, -3], [-1, 2, 3], [1, -2, -3]] (fun _ => 0) =
      (true, some (refineResult 3 [[1, 2, -3], [-1, 2, 3], [1, -2, -3]] (fun _ => 0)).asg,
        ([[1, 2, -3], [-1, 2, 3], [1, -2, -3]] : List Clause).length,
        (construct [[1, 2, -3], [-1, 2, 3], [1, -2, -3]]).2 ++
          (refineResult 3 [[1, 2, -3], [-1, 2, 3], [1, -2, -3]] (fun _ => 0)).steps) :=
  (claim_C1_termination_contract 3 [[1, 2, -3], [-1, 2, 3], [1, -2, -3]] (fun _ => 0)
    (by decide)).1 (by decide)

theorem accept_bool_iff (clauses : List Clause) (choice : Nat) (asg : Assignment)
    (cand : Cand) :
    ((0 < cand.gain) ||
        (cand.gain == 0 && !is_clause_satisfied (pickTarget clauses choice asg).2 asg &&
          is_clause_satisfied (pickTarget clauses choice asg).2
            (setVar asg cand.var cand.val))) = true ↔
      (0 < cand.gain ∨ (cand.gain = 0
        ∧ is_clause_satisfied (pickTarget clauses choice asg).2 asg = false
        ∧ is_clause_satisfied (pickTarget clauses choice asg).2
            (setVar asg cand.var cand.val) = true)) := by
  simp [Bool.or_eq_true, Bool.and_eq_true, decide_eq_true_eq, beq_iff_eq,
    Bool.not_eq_true']
  tauto

/-- C2: in a refiner iteration the selected flip is applied if and only if
its net gain is strictly positive, or zero while the target clause is
unsatisfied under the current assignment and satisfied under the flipped
one; a rejected or missing candidate leaves the state unchanged with no
step emitted, and in either case the loop consumes exactly one budget
unit. -/
theorem claim_C2_acceptance_rule (clauses : List Clause) (choice : Nat)
    (asg : Assignment) (cnt : Nat) :
    (∀ cand, chooseFlip clauses asg cnt (pickTarget clauses choice asg).2 = some cand →
      (refineOnce clauses choice asg cnt =
          (setVar asg cand.var cand.val,
            count_satisfied_clauses clauses (setVar asg cand.var cand.val),
            some (cand.var, cand.val,
              flipReason cand.var cand.val (pickTarget clauses choice asg).1
                cand.gain cand.cost))
        ↔ (0 < cand.gain ∨ (cand.gain = 0
            ∧ is_clause_satisfied (pickTarget clauses choice asg).2 asg = false
            ∧ is_clause_satisfied (pickTarget clauses choice asg).2
                (setVar asg cand.var cand.val) = true)))
      ∧ (¬ (0 < cand.gain ∨ (cand.gain = 0
            ∧ is_clause_satisfied (pickTarget clauses choice asg).2 asg = false
            ∧ is_clause_satisfied (pickTarget clauses choice asg).2
                (setVar asg cand.var cand.val) = true)) →
          refineOnce clauses choice asg cnt = (asg, cnt, none)))
    ∧ (chooseFlip clauses asg cnt (pickTarget clauses choice asg).2 = none →
        refineOnce clauses choice asg cnt = (asg, cnt, none))
    ∧ (∀ (rand : Nat → Nat) (fuel k : Nat) (steps : List Step),
        unsatEnum clauses asg ≠ [] → rand k = choice →
        (refineLoop clauses rand (fuel + 1) k asg cnt steps).iters =
          (refineLoop clauses rand fuel (k + 1) (refineOnce clauses choice asg cnt).1
            (refineOnce clauses choice asg cnt).2.1
            (steps ++ (refineOnce clauses choice asg cnt).2.2.toList)).iters + 1) := by
  refine ⟨?_, refineOnce_of_none clauses choice asg cnt, ?_⟩
  · intro cand hc
    constructor
    · constructor
      · intro heq
        by_contra hrej
        have ha := (not_iff_not.mpr (accept_bool_iff clauses choice asg cand)).mpr hrej
        rw [Bool.not_eq_true] at ha
        rw [refineOnce_of_reject clauses choice asg cnt cand hc ha] at heq
        exact (Option.noConfusion (congrArg (fun t => t.2.2) heq))
      · intro hacc
        exact refineOnce_of_accept clauses choice asg cnt cand hc
          ((accept_bool_iff clauses choice asg cand).mpr hacc)
    · intro hrej
      have ha := (not_iff_not.mpr (accept_bool_iff clauses choice asg cand)).mpr hrej
      rw [Bool.not_eq_true] at ha
      exact refineOnce_of_reject clauses choice asg cnt cand hc ha
  · intro rand fuel k steps hu hrk
    rw [refineLoop_succ_cont clauses rand fuel k asg cnt steps hu, hrk]

/-- C3: the selected flip candidate evaluates the target clause's literals
in clause order, and is the one maximizing the net gain, with ties broken
by minimal multiset cost and remaining ties by earliest position: every
candidate before it in clause order is strictly worse (smaller gain, or
equal gain and strictly larger cost), and no candidate after it is
strictly better. -/
theorem claim_C3_candidate_selection (clauses : List Clause) (asg : Assignment)
    (cnt : Nat) (target : Clause) (cand : Cand)
    (h : chooseFlip clauses asg cnt target = some cand) :
    (∀ d ∈ target.map (evalCand clauses asg cnt), d.gain ≤ cand.gain)
    ∧ (∀ d ∈ target.map (evalCand clauses asg cnt), d.gain = cand.gain →
        cand.cost ≤ d.cost)
    ∧ ∃ pre post, target.map (evalCand clauses asg cnt) = pre ++ cand :: post
        ∧ (∀ d ∈ pre, d.gain < cand.gain ∨ (d.gain = cand.gain ∧ cand.cost < d.cost))
        ∧ (∀ d ∈ post, d.gain ≤ cand.gain ∧ (d.gain = cand.gain → cand.cost ≤ d.cost)) := by
  rcases chooseFlip_cases clauses asg cnt target cand h with ⟨pre, post, hs, hpre, hpost⟩
  have hpre' : ∀ d ∈ pre, d.gain < cand.gain ∨ (d.gain = cand.gain ∧ cand.cost < d.cost) := by
    intro d hd
    have hb := hpre d hd
    unfold Better at hb
    omega
  have hpost' : ∀ d ∈ post, d.gain ≤ cand.gain ∧ (d.gain = cand.gain → cand.cost ≤ d.cost) := by
    intro d hd
    have hb := hpost d hd
    unfold Better at hb
    omega
  refine ⟨?_, ?_, pre, post, hs, hpre', hpost'⟩
  · intro d hd
    rw [hs] at hd
    rcases List.mem_append.mp hd with hd | hd
    · rcases hpre' d hd with h1 | ⟨h1, _⟩
      · exact le_of_lt h1
      · exact le_of_eq h1
    · rcases List.mem_cons.mp hd with hd | hd
      · exact le_of_eq (congrArg Cand.gain hd)
      · exact (hpost' d hd).1
  · intro d hd hg
    rw [hs] at hd
    rcases List.mem_append.mp hd with hd | hd
    · rcases hpre' d hd with h1 | ⟨_, h1⟩
      · omega
      · exact le_of_lt h1
    · rcases List.mem_cons.mp hd with hd | hd
      · exact le_of_eq (congrArg Cand.cost hd).symm
      · exact (hpost' d hd).2 hg

/-- Closed instance of C3: for formula `{(1), (-1)}` with assignment
`{1 ↦ true}` and cached count 1, the single candidate of target clause
`(-1)` is selected. -/
theorem claim_C3_witness :
    (∀ d ∈ ([-1] : Clause).map (evalCand [[1], [-1]] [(1, true)] 1),
      d.gain ≤ (Cand.mk 1 false 0 1).gain)
    ∧ (∀ d ∈ ([-1] : Clause).map (evalCand [[1], [-1]] [(1, true)] 1),
        d.gain = (Cand.mk 1 false 0 1).gain → (Cand.mk 1 false 0 1).cost ≤ d.cost)
    ∧ ∃ pre post, ([-1] : Clause).map (evalCand [[1], [-1]] [(1, true)] 1) =
          pre ++ Cand.mk 1 false 0 1 :: post
        ∧ (∀ d ∈ pre, d.gain < (Cand.mk 1 false 0 1).gain ∨
            (d.gain = (Cand.mk 1 false 0 1).gain ∧ (Cand.mk 1 false 0 1).cost < d.cost))
        ∧ (∀ d ∈ post, d.gain ≤ (Cand.mk 1 false 0 1).gain ∧
            (d.gain = (Cand.mk 1 false 0 1).gain → (Cand.mk 1 false 0 1).cost ≤ d.cost)) :=
  claim_C3_candidate_selection [[1], [-1]] [(1, true)] 1 [-1] (Cand.mk 1 false 0 1)
    (by decide)

/-- C4 (amended): an unreadable source parses to the degenerate empty
formula `(0, [])`, and whenever parsing yields no clauses `solve` reports
`satisfiable = false` with zero satisfied clauses and the empty assignment
dict (not `None`), rather than the vacuous success the spec describes. -/
theorem claim_C4_amended_degradation :
    parse_dimacs none = (0, [])
    ∧ (∀ lines, parseLines lines 0 [] = none → parse_dimacs (some lines) = (0, []))
    ∧ (∀ (src : Option (List PyStr)) (rand : Nat → Nat),
        (parse_dimacs src).2 = [] →
        solve_3sat src rand = (false, some [], 0, [])) := by
  refine ⟨rfl, ?_, ?_⟩
  · intro lines h
    show (match parseLines lines 0 [] with
      | some r => r
      | none => ((0 : Int), ([] : List Clause))) = (0, [])
    rw [h]
  intro src rand h
  unfold solve_3sat
  rw [h]
  unfold solve_core
  simp

/-- C4 counterexample: on an unreadable source (or any input that parses to
no clauses) the code reports `satisfiable = false`, not the
`satisfiable = true` the claim states. -/
theorem claim_C4_counterexample :
    (solve_3sat none (fun _ => 0)).1 = false
    ∧ ((solve_3sat none (fun _ => 0)).1 = true → False) := by
  refine ⟨rfl, ?_⟩
  intro h
  cases h
